import Mathlib

/-!
Shallow embedding of the era-derivation subsystem of the synthea-to-OMOP ETL:
the per-group interval-merge loops of `ConditionEraTransformer._build_eras`,
`DrugEraTransformer._build_eras` and `DoseEraTransformer._build_eras`, the
null-end-date defaulting applied before merging, the surrogate-key generation
`_generate_era_id`, and the dose-era duplicate-id fallback.

Dates are modelled as integers counting days, so subtracting two dates gives
the signed number of days between them, exactly as `(a - b).days` does on
pandas timestamps.  A null (NaN) end date is `Option.none`.  Each transformer
processes the groups of a `groupby` independently; the embedding models the
body executed for one group, which is where every algorithmic property lives.
-/

/-- One source row of a group: a `condition_occurrence` row
(`condition_start_date`, `condition_end_date`) or a `drug_exposure` row
(`drug_exposure_start_date`, `drug_exposure_end_date`).  The group-key columns
(person id, concept id, and for dose eras the dose value and unit) are
constant within a group and are copied verbatim into every emitted era, so
they are not repeated here. -/
structure SourceRecord where
  start_date : Int
  end_date : Option Int
deriving DecidableEq, Repr

/-- Null-end-date substitution of the condition era variant: a missing
`condition_end_date` becomes the row's `condition_start_date`. -/
def condition_default_end (r : SourceRecord) : Int :=
  r.end_date.getD r.start_date

/-- Null-end-date substitution of the drug era variant: a missing
`drug_exposure_end_date` becomes `drug_exposure_start_date + timedelta(days=1)`. -/
def drug_default_end (r : SourceRecord) : Int :=
  r.end_date.getD (r.start_date + 1)

/-- Null-end-date substitution of the dose era variant: a missing
`drug_exposure_end_date` becomes `drug_exposure_start_date + timedelta(days=1)`. -/
def dose_default_end (r : SourceRecord) : Int :=
  r.end_date.getD (r.start_date + 1)

/-- Sorting of a group by start date, `group.sort_values('..._start_date')`.
The source does not fix a tie-break for equal start dates; a stable insertion
sort realises one admissible order. -/
def sort_by_start (group : List SourceRecord) : List SourceRecord :=
  group.insertionSort (fun a b => a.start_date ≤ b.start_date)

instance : IsTotal SourceRecord (fun a b => a.start_date ≤ b.start_date) :=
  ⟨fun a b => le_total a.start_date b.start_date⟩

instance : IsTrans SourceRecord (fun a b => a.start_date ≤ b.start_date) :=
  ⟨fun _ _ _ hab hbc => le_trans hab hbc⟩

/-- One emitted `condition_era` row (group-key columns omitted, see
`SourceRecord`). -/
structure ConditionEra where
  condition_era_start_date : Int
  condition_era_end_date : Int
  condition_occurrence_count : Nat
deriving DecidableEq, Repr

/-- One emitted `drug_era` row. -/
structure DrugEra where
  drug_era_start_date : Int
  drug_era_end_date : Int
  drug_exposure_count : Nat
  gap_days : Int
deriving DecidableEq, Repr

/-- One emitted `dose_era` row. -/
structure DoseEra where
  dose_era_start_date : Int
  dose_era_end_date : Int
deriving DecidableEq, Repr

/-- Merge loop of `ConditionEraTransformer._build_eras` (`for i in
range(1, len(group))`), acting on the remaining `(start, end)` pairs with the
running era state `(era_start, era_end, occurrence_count)`.  The final state is
emitted after the loop ("don't forget the last era").  After defaulting, no
date is NaN, so the `pd.notna` guards of the source always take their date
branch. -/
def condition_eras_loop (gap_days : Int) (era_start era_end : Int)
    (occurrence_count : Nat) : List (Int × Int) → List ConditionEra
  | [] => [⟨era_start, era_end, occurrence_count⟩]
  | (current_start, current_end) :: rest =>
    if current_start - era_end ≤ gap_days then
      condition_eras_loop gap_days era_start (max era_end current_end)
        (occurrence_count + 1) rest
    else
      ⟨era_start, era_end, occurrence_count⟩ ::
        condition_eras_loop gap_days current_start current_end 1 rest

/-- Per-group body of `ConditionEraTransformer._build_eras`: sort by start
date, substitute null end dates, seed the era state from row 0 and run the
merge loop over the remaining rows. -/
def condition_build_eras (gap_days : Int) (group : List SourceRecord) :
    List ConditionEra :=
  match (sort_by_start group).map
      (fun r => (r.start_date, condition_default_end r)) with
  | [] => []
  | (s, e) :: rest => condition_eras_loop gap_days s e 1 rest

/-- Merge loop of `DrugEraTransformer._build_eras`; additionally accumulates
`total_gap_days`, adding the gap whenever a merged row's gap is positive. -/
def drug_eras_loop (gap_days : Int) (era_start era_end : Int)
    (exposure_count : Nat) (total_gap_days : Int) :
    List (Int × Int) → List DrugEra
  | [] => [⟨era_start, era_end, exposure_count, total_gap_days⟩]
  | (current_start, current_end) :: rest =>
    if current_start - era_end ≤ gap_days then
      drug_eras_loop gap_days era_start (max era_end current_end)
        (exposure_count + 1)
        (if 0 < current_start - era_end then
          total_gap_days + (current_start - era_end)
        else total_gap_days) rest
    else
      ⟨era_start, era_end, exposure_count, total_gap_days⟩ ::
        drug_eras_loop gap_days current_start current_end 1 0 rest

/-- Per-group body of `DrugEraTransformer._build_eras`. -/
def drug_build_eras (gap_days : Int) (group : List SourceRecord) :
    List DrugEra :=
  match (sort_by_start group).map
      (fun r => (r.start_date, drug_default_end r)) with
  | [] => []
  | (s, e) :: rest => drug_eras_loop gap_days s e 1 0 rest

/-- Merge loop of `DoseEraTransformer._build_eras`; tracks only the era
span. -/
def dose_eras_loop (gap_days : Int) (era_start era_end : Int) :
    List (Int × Int) → List DoseEra
  | [] => [⟨era_start, era_end⟩]
  | (current_start, current_end) :: rest =>
    if current_start - era_end ≤ gap_days then
      dose_eras_loop gap_days era_start (max era_end current_end) rest
    else
      ⟨era_start, era_end⟩ ::
        dose_eras_loop gap_days current_start current_end rest

/-- Per-group body of `DoseEraTransformer._build_eras`. -/
def dose_build_eras (gap_days : Int) (group : List SourceRecord) :
    List DoseEra :=
  match (sort_by_start group).map
      (fun r => (r.start_date, dose_default_end r)) with
  | [] => []
  | (s, e) :: rest => dose_eras_loop gap_days s e rest

/-- Common core of the three merge loops: the sequence of `(era_start,
era_end)` spans they emit.  Each variant's loop projects onto this (proved
below); the interval properties are established once here. -/
def era_spans_loop (gap_days : Int) (era_start era_end : Int) :
    List (Int × Int) → List (Int × Int)
  | [] => [(era_start, era_end)]
  | (current_start, current_end) :: rest =>
    if current_start - era_end ≤ gap_days then
      era_spans_loop gap_days era_start (max era_end current_end) rest
    else
      (era_start, era_end) ::
        era_spans_loop gap_days current_start current_end rest

/-- Spans emitted for a whole group, with sorting and a given null-end-date
default. -/
def build_era_spans (gap_days : Int) (default_end : SourceRecord → Int)
    (group : List SourceRecord) : List (Int × Int) :=
  match (sort_by_start group).map (fun r => (r.start_date, default_end r)) with
  | [] => []
  | (s, e) :: rest => era_spans_loop gap_days s e rest

/-- Companion of `drug_eras_loop` following the specification's wording for
`gap_days`: it collects, for each emitted era, the list of positive
inter-record gaps absorbed into that era, each computed between the merged
row's start date and the running era end. -/
def drug_gap_lists_loop (gap_days : Int) (era_end : Int) (gaps : List Int) :
    List (Int × Int) → List (List Int)
  | [] => [gaps]
  | (current_start, current_end) :: rest =>
    if current_start - era_end ≤ gap_days then
      drug_gap_lists_loop gap_days (max era_end current_end)
        (if 0 < current_start - era_end then
          gaps ++ [current_start - era_end]
        else gaps) rest
    else
      gaps :: drug_gap_lists_loop gap_days current_end [] rest

/-- Absorbed-gap lists for a whole drug era group. -/
def drug_build_gap_lists (gap_days : Int) (group : List SourceRecord) :
    List (List Int) :=
  match (sort_by_start group).map
      (fun r => (r.start_date, drug_default_end r)) with
  | [] => []
  | (_, e) :: rest => drug_gap_lists_loop gap_days e [] rest

/-- Companion of the merge loops following the claims' wording for the
occurrence counts: it collects, for each emitted era, the list of (defaulted)
source records merged into that era, maintaining the running era end exactly
as the merge loops do. -/
def merged_records_loop (gap_days : Int) (era_end : Int)
    (merged : List (Int × Int)) : List (Int × Int) → List (List (Int × Int))
  | [] => [merged]
  | (current_start, current_end) :: rest =>
    if current_start - era_end ≤ gap_days then
      merged_records_loop gap_days (max era_end current_end)
        (merged ++ [(current_start, current_end)]) rest
    else
      merged :: merged_records_loop gap_days current_end
        [(current_start, current_end)] rest

/-- Merged-record lists for a whole group, with sorting and a given
null-end-date default: one list per emitted era, seeded with row 0. -/
def build_merged_records (gap_days : Int) (default_end : SourceRecord → Int)
    (group : List SourceRecord) : List (List (Int × Int)) :=
  match (sort_by_start group).map (fun r => (r.start_date, default_end r)) with
  | [] => []
  | (s, e) :: rest => merged_records_loop gap_days e [(s, e)] rest

/-- Big-endian unsigned interpretation of a byte sequence,
`int.from_bytes(bytes, byteorder='big', signed=False)`. -/
def int_from_bytes_be (bytes : List Nat) : Nat :=
  bytes.foldl (fun acc b => acc * 256 + b) 0

/-- Common tail of the `_generate_era_id` methods: truncate the digest to its
first `nbytes` bytes, read them big-endian, reduce modulo `2147483647` and add
one. -/
def era_id_of_digest (digest : List Nat) (nbytes : Nat) : Nat :=
  int_from_bytes_be (digest.take nbytes) % 2147483647 + 1

/-- Era id of `ConditionEraTransformer._generate_era_id`: first 4 bytes of the
128-bit digest of the key string.  The digest function (`hashlib.md5`) is an
external library and is passed in abstractly. -/
def condition_generate_era_id (md5 : String → List Nat) (key : String) : Nat :=
  era_id_of_digest (md5 key) 4

/-- Era id of `DrugEraTransformer._generate_era_id`: first 4 digest bytes. -/
def drug_generate_era_id (md5 : String → List Nat) (key : String) : Nat :=
  era_id_of_digest (md5 key) 4

/-- Era id of `DoseEraTransformer._generate_era_id`: first 8 digest bytes. -/
def dose_generate_era_id (md5 : String → List Nat) (key : String) : Nat :=
  era_id_of_digest (md5 key) 8

/-- Dose-era id assignment over the full output frame: hash each row together
with its row index (`row.name`), then check the whole id column for
duplicates; if any id repeats, discard every hash id and assign `1..N`
sequentially (`range(1, len(eras_df) + 1)`).  The hash of a row is passed in
abstractly as a function of the row index and row content. -/
def dose_assign_ids (hash_id : Nat → DoseEra → Nat) (rows : List DoseEra) :
    List Nat :=
  let ids := rows.enum.map (fun p => hash_id p.1 p.2)
  if ids.Nodup then ids else List.range' 1 rows.length

/-! ### Span-level lemmas about the merge loop -/

theorem era_spans_loop_head (g es ee : Int) (l : List (Int × Int)) :
    ∃ ee' rest, era_spans_loop g es ee l = (es, ee') :: rest ∧ ee ≤ ee' := by
  induction l generalizing ee with
  | nil => exact ⟨ee, [], rfl, le_refl ee⟩
  | cons p rest ih =>
    obtain ⟨s, e⟩ := p
    by_cases h : s - ee ≤ g
    · obtain ⟨ee', tl, heq, hle⟩ := ih (max ee e)
      exact ⟨ee', tl, by simp [era_spans_loop, h, heq],
        le_trans (le_max_left ee e) hle⟩
    · exact ⟨ee, era_spans_loop g s e rest, by simp [era_spans_loop, h],
        le_refl ee⟩

theorem era_spans_loop_wf {g es ee : Int} {l : List (Int × Int)}
    (h1 : es ≤ ee) (h2 : ∀ p ∈ l, p.1 ≤ p.2) :
    ∀ q ∈ era_spans_loop g es ee l, q.1 ≤ q.2 := by
  induction l generalizing es ee with
  | nil =>
    intro q hq
    simp only [era_spans_loop, List.mem_singleton] at hq
    subst hq
    exact h1
  | cons p rest ih =>
    obtain ⟨s, e⟩ := p
    intro q hq
    by_cases h : s - ee ≤ g
    · simp only [era_spans_loop, if_pos h] at hq
      exact ih (le_trans h1 (le_max_left ee e))
        (fun p hp => h2 p (List.mem_cons_of_mem _ hp)) q hq
    · simp only [era_spans_loop, if_neg h, List.mem_cons] at hq
      rcases hq with rfl | hq
      · exact h1
      · exact ih (h2 (s, e) (List.mem_cons_self _ _))
          (fun p hp => h2 p (List.mem_cons_of_mem _ hp)) q hq

theorem era_spans_loop_start_ge {g es ee : Int} {l : List (Int × Int)}
    (hg : 0 ≤ g) (h1 : es ≤ ee) (h2 : ∀ p ∈ l, p.1 ≤ p.2) :
    ∀ q ∈ era_spans_loop g es ee l, es ≤ q.1 := by
  induction l generalizing es ee with
  | nil =>
    intro q hq
    simp only [era_spans_loop, List.mem_singleton] at hq
    subst hq
    exact le_refl es
  | cons p rest ih =>
    obtain ⟨s, e⟩ := p
    intro q hq
    by_cases h : s - ee ≤ g
    · simp only [era_spans_loop, if_pos h] at hq
      exact ih (le_trans h1 (le_max_left ee e))
        (fun p hp => h2 p (List.mem_cons_of_mem _ hp)) q hq
    · simp only [era_spans_loop, if_neg h, List.mem_cons] at hq
      rcases hq with rfl | hq
      · exact le_refl es
      · have hs : ee < s := by omega
        have := ih (h2 (s, e) (List.mem_cons_self _ _))
          (fun p hp => h2 p (List.mem_cons_of_mem _ hp)) q hq
        omega

theorem era_spans_loop_chain {g : Int} (hg : 0 ≤ g) (es ee : Int)
    (l : List (Int × Int)) :
    List.Chain' (fun p q : Int × Int => p.2 < q.1 ∧ g < q.1 - p.2)
      (era_spans_loop g es ee l) := by
  induction l generalizing es ee with
  | nil => exact List.chain'_singleton _
  | cons p rest ih =>
    obtain ⟨s, e⟩ := p
    by_cases h : s - ee ≤ g
    · simpa only [era_spans_loop, if_pos h] using ih es (max ee e)
    · simp only [era_spans_loop, if_neg h]
      refine List.chain'_cons'.mpr ⟨?_, ih s e⟩
      intro y hy
      obtain ⟨ee', tl, heq, _⟩ := era_spans_loop_head g s e rest
      rw [heq] at hy
      simp only [List.head?_cons, Option.mem_def, Option.some.injEq] at hy
      subst hy
      constructor <;> omega

theorem era_spans_loop_pairwise {g es ee : Int} {l : List (Int × Int)}
    (hg : 0 ≤ g) (h1 : es ≤ ee) (h2 : ∀ p ∈ l, p.1 ≤ p.2) :
    List.Pairwise (fun p q : Int × Int => p.2 < q.1)
      (era_spans_loop g es ee l) := by
  induction l generalizing es ee with
  | nil => simp [era_spans_loop]
  | cons p rest ih =>
    obtain ⟨s, e⟩ := p
    by_cases h : s - ee ≤ g
    · simp only [era_spans_loop, if_pos h]
      exact ih (le_trans h1 (le_max_left ee e))
        (fun p hp => h2 p (List.mem_cons_of_mem _ hp))
    · simp only [era_spans_loop, if_neg h]
      refine List.Pairwise.cons ?_
        (ih (h2 (s, e) (List.mem_cons_self _ _))
          (fun p hp => h2 p (List.mem_cons_of_mem _ hp)))
      intro q hq
      have := era_spans_loop_start_ge hg (h2 (s, e) (List.mem_cons_self _ _))
        (fun p hp => h2 p (List.mem_cons_of_mem _ hp)) q hq
      omega

theorem era_spans_loop_cover {g es ee : Int} {l : List (Int × Int)}
    (h1 : es ≤ ee) (h2 : ∀ p ∈ l, p.1 ≤ p.2) (h3 : ∀ p ∈ l, es ≤ p.1)
    (h4 : List.Pairwise (fun p q : Int × Int => p.1 ≤ q.1) l) :
    ∀ p ∈ l, ∃ q ∈ era_spans_loop g es ee l, q.1 ≤ p.1 ∧ p.1 ≤ q.2 := by
  induction l generalizing es ee with
  | nil => intro p hp; exact absurd hp (List.not_mem_nil p)
  | cons hd rest ih =>
    obtain ⟨s, e⟩ := hd
    intro p hp
    by_cases h : s - ee ≤ g
    · simp only [era_spans_loop, if_pos h]
      rcases List.mem_cons.mp hp with rfl | hp'
      · obtain ⟨ee', tl, heq, hle⟩ := era_spans_loop_head g es (max ee e) rest
        refine ⟨(es, ee'), by rw [heq]; exact List.mem_cons_self _ _,
          h3 (s, e) (List.mem_cons_self _ _), ?_⟩
        have hse : s ≤ e := h2 (s, e) (List.mem_cons_self _ _)
        have : e ≤ max ee e := le_max_right ee e
        simp only
        omega
      · exact ih (le_trans h1 (le_max_left ee e))
          (fun q hq => h2 q (List.mem_cons_of_mem _ hq))
          (fun q hq => h3 q (List.mem_cons_of_mem _ hq))
          (List.Pairwise.of_cons h4) p hp'
    · simp only [era_spans_loop, if_neg h]
      rcases List.mem_cons.mp hp with rfl | hp'
      · obtain ⟨ee', tl, heq, hle⟩ := era_spans_loop_head g s e rest
        refine ⟨(s, ee'), ?_, le_refl _, ?_⟩
        · rw [heq]; exact List.mem_cons_of_mem _ (List.mem_cons_self _ _)
        · have hse : s ≤ e := h2 (s, e) (List.mem_cons_self _ _)
          simp only
          omega
      · obtain ⟨q, hq, hcov⟩ := ih (h2 (s, e) (List.mem_cons_self _ _))
          (fun q hq => h2 q (List.mem_cons_of_mem _ hq))
          (fun q hq => List.rel_of_pairwise_cons h4 hq)
          (List.Pairwise.of_cons h4) p hp'
        exact ⟨q, List.mem_cons_of_mem _ hq, hcov⟩

/-! ### Each variant's loop projects onto the common span loop -/

theorem condition_eras_loop_spans (g es ee : Int) (c : Nat)
    (l : List (Int × Int)) :
    (condition_eras_loop g es ee c l).map
      (fun era => (era.condition_era_start_date, era.condition_era_end_date)) =
      era_spans_loop g es ee l := by
  induction l generalizing es ee c with
  | nil => simp [condition_eras_loop, era_spans_loop]
  | cons p rest ih =>
    obtain ⟨s, e⟩ := p
    by_cases h : s - ee ≤ g <;>
      simp [condition_eras_loop, era_spans_loop, h, ih]

theorem drug_eras_loop_spans (g es ee : Int) (c : Nat) (t : Int)
    (l : List (Int × Int)) :
    (drug_eras_loop g es ee c t l).map
      (fun era => (era.drug_era_start_date, era.drug_era_end_date)) =
      era_spans_loop g es ee l := by
  induction l generalizing es ee c t with
  | nil => simp [drug_eras_loop, era_spans_loop]
  | cons p rest ih =>
    obtain ⟨s, e⟩ := p
    by_cases h : s - ee ≤ g <;>
      simp [drug_eras_loop, era_spans_loop, h, ih]

theorem dose_eras_loop_spans (g es ee : Int) (l : List (Int × Int)) :
    (dose_eras_loop g es ee l).map
      (fun era => (era.dose_era_start_date, era.dose_era_end_date)) =
      era_spans_loop g es ee l := by
  induction l generalizing es ee with
  | nil => simp [dose_eras_loop, era_spans_loop]
  | cons p rest ih =>
    obtain ⟨s, e⟩ := p
    by_cases h : s - ee ≤ g <;>
      simp [dose_eras_loop, era_spans_loop, h, ih]

/-! ### Sorting facts -/

theorem mem_sort_by_start {r : SourceRecord} {group : List SourceRecord} :
    r ∈ sort_by_start group ↔ r ∈ group :=
  (List.perm_insertionSort _ group).mem_iff

theorem sorted_sort_by_start (group : List SourceRecord) :
    List.Sorted (fun a b : SourceRecord => a.start_date ≤ b.start_date)
      (sort_by_start group) :=
  List.sorted_insertionSort _ group

theorem length_sort_by_start (group : List SourceRecord) :
    (sort_by_start group).length = group.length :=
  (List.perm_insertionSort _ group).length_eq

/-! ### Group-level span lemmas -/

theorem build_era_spans_wf {g : Int} {default_end : SourceRecord → Int}
    {group : List SourceRecord}
    (hwf : ∀ r ∈ group, r.start_date ≤ default_end r) :
    ∀ q ∈ build_era_spans g default_end group, q.1 ≤ q.2 := by
  cases hs : sort_by_start group with
  | nil => simp [build_era_spans, hs]
  | cons r rs =>
    simp only [build_era_spans, hs, List.map_cons]
    apply era_spans_loop_wf
    · exact hwf r (mem_sort_by_start.mp
        (show r ∈ sort_by_start group by rw [hs]; exact List.mem_cons_self r rs))
    · intro p hp
      obtain ⟨x, hx, rfl⟩ := List.mem_map.mp hp
      exact hwf x (mem_sort_by_start.mp
        (show x ∈ sort_by_start group by
          rw [hs]; exact List.mem_cons_of_mem _ hx))

theorem build_era_spans_chain {g : Int} (hg : 0 ≤ g)
    (default_end : SourceRecord → Int) (group : List SourceRecord) :
    List.Chain' (fun p q : Int × Int => p.2 < q.1 ∧ g < q.1 - p.2)
      (build_era_spans g default_end group) := by
  cases hs : sort_by_start group with
  | nil => simp [build_era_spans, hs]
  | cons r rs =>
    simp only [build_era_spans, hs, List.map_cons]
    exact era_spans_loop_chain hg _ _ _

theorem build_era_spans_pairwise {g : Int} {default_end : SourceRecord → Int}
    {group : List SourceRecord} (hg : 0 ≤ g)
    (hwf : ∀ r ∈ group, r.start_date ≤ default_end r) :
    List.Pairwise (fun p q : Int × Int => p.2 < q.1)
      (build_era_spans g default_end group) := by
  cases hs : sort_by_start group with
  | nil => simp [build_era_spans, hs]
  | cons r rs =>
    simp only [build_era_spans, hs, List.map_cons]
    apply era_spans_loop_pairwise hg
    · exact hwf r (mem_sort_by_start.mp
        (show r ∈ sort_by_start group by rw [hs]; exact List.mem_cons_self r rs))
    · intro p hp
      obtain ⟨x, hx, rfl⟩ := List.mem_map.mp hp
      exact hwf x (mem_sort_by_start.mp
        (show x ∈ sort_by_start group by
          rw [hs]; exact List.mem_cons_of_mem _ hx))

theorem build_era_spans_cover {g : Int} {default_end : SourceRecord → Int}
    {group : List SourceRecord}
    (hwf : ∀ r ∈ group, r.start_date ≤ default_end r) :
    ∀ r ∈ group, ∃ q ∈ build_era_spans g default_end group,
      q.1 ≤ r.start_date ∧ r.start_date ≤ q.2 := by
  intro r hr
  have hr' : r ∈ sort_by_start group := mem_sort_by_start.mpr hr
  cases hs : sort_by_start group with
  | nil => rw [hs] at hr'; exact absurd hr' (List.not_mem_nil r)
  | cons r0 rs =>
    rw [hs] at hr'
    have hsorted := sorted_sort_by_start group
    rw [hs, List.sorted_cons] at hsorted
    have hmem : ∀ x ∈ r0 :: rs, x ∈ group := by
      intro x hx
      exact mem_sort_by_start.mp
        (show x ∈ sort_by_start group by rw [hs]; exact hx)
    have h1 : r0.start_date ≤ default_end r0 :=
      hwf r0 (hmem r0 (List.mem_cons_self _ _))
    have h2 : ∀ p ∈ rs.map (fun x => (x.start_date, default_end x)),
        p.1 ≤ p.2 := by
      intro p hp
      obtain ⟨x, hx, rfl⟩ := List.mem_map.mp hp
      exact hwf x (hmem x (List.mem_cons_of_mem _ hx))
    simp only [build_era_spans, hs, List.map_cons]
    rcases List.mem_cons.mp hr' with rfl | hr''
    · obtain ⟨ee', tl, heq, hle⟩ := era_spans_loop_head g r.start_date
        (default_end r) (rs.map (fun x => (x.start_date, default_end x)))
      refine ⟨(r.start_date, ee'), by rw [heq]; exact List.mem_cons_self _ _,
        le_refl _, ?_⟩
      simp only
      omega
    · have h3 : ∀ p ∈ rs.map (fun x => (x.start_date, default_end x)),
          r0.start_date ≤ p.1 := by
        intro p hp
        obtain ⟨x, hx, rfl⟩ := List.mem_map.mp hp
        exact hsorted.1 x hx
      have h4 : List.Pairwise (fun p q : Int × Int => p.1 ≤ q.1)
          (rs.map (fun x => (x.start_date, default_end x))) :=
        List.pairwise_map.mpr hsorted.2
      exact era_spans_loop_cover h1 h2 h3 h4 _
        (List.mem_map_of_mem _ hr'')

theorem cover_unique_of_pairwise {α : Type} {L : List α} {lo hi : α → Int}
    (hp : List.Pairwise (fun a b => hi a < lo b) L) (x : Int) :
    ∀ a ∈ L, ∀ b ∈ L, lo a ≤ x → x ≤ hi a → lo b ≤ x → x ≤ hi b → a = b := by
  induction L with
  | nil => intro a ha; exact absurd ha (List.not_mem_nil a)
  | cons hd tl ih =>
    intro a ha b hb ha1 ha2 hb1 hb2
    rcases List.mem_cons.mp ha with rfl | ha' <;>
      rcases List.mem_cons.mp hb with rfl | hb'
    · rfl
    · have := List.rel_of_pairwise_cons hp hb'
      omega
    · have := List.rel_of_pairwise_cons hp ha'
      omega
    · exact ih (List.Pairwise.of_cons hp) a ha' b hb' ha1 ha2 hb1 hb2

/-! ### Build-level projections -/

theorem condition_build_eras_spans (g : Int) (group : List SourceRecord) :
    (condition_build_eras g group).map
      (fun era => (era.condition_era_start_date, era.condition_era_end_date)) =
      build_era_spans g condition_default_end group := by
  cases hs : sort_by_start group with
  | nil => simp [condition_build_eras, build_era_spans, hs]
  | cons r rs =>
    simp [condition_build_eras, build_era_spans, hs, condition_eras_loop_spans]

theorem drug_build_eras_spans (g : Int) (group : List SourceRecord) :
    (drug_build_eras g group).map
      (fun era => (era.drug_era_start_date, era.drug_era_end_date)) =
      build_era_spans g drug_default_end group := by
  cases hs : sort_by_start group with
  | nil => simp [drug_build_eras, build_era_spans, hs]
  | cons r rs =>
    simp [drug_build_eras, build_era_spans, hs, drug_eras_loop_spans]

theorem dose_build_eras_spans (g : Int) (group : List SourceRecord) :
    (dose_build_eras g group).map
      (fun era => (era.dose_era_start_date, era.dose_era_end_date)) =
      build_era_spans g dose_default_end group := by
  cases hs : sort_by_start group with
  | nil => simp [dose_build_eras, build_era_spans, hs]
  | cons r rs =>
    simp [dose_build_eras, build_era_spans, hs, dose_eras_loop_spans]

/-! ### Claim theorems -/

/-- C1: for every variant and every group, consecutive emitted eras `e1, e2`
satisfy `e1.era_end_date < e2.era_start_date` and
`(e2.era_start_date - e1.era_end_date).days > gap_days`: eras of a group are
non-overlapping, ordered, and separated by strictly more than the persistence
window. -/
theorem era_group_separation (g : Int) (group : List SourceRecord)
    (hg : 0 ≤ g) :
    List.Chain' (fun e1 e2 : ConditionEra =>
        e1.condition_era_end_date < e2.condition_era_start_date ∧
        g < e2.condition_era_start_date - e1.condition_era_end_date)
      (condition_build_eras g group) ∧
    List.Chain' (fun e1 e2 : DrugEra =>
        e1.drug_era_end_date < e2.drug_era_start_date ∧
        g < e2.drug_era_start_date - e1.drug_era_end_date)
      (drug_build_eras g group) ∧
    List.Chain' (fun e1 e2 : DoseEra =>
        e1.dose_era_end_date < e2.dose_era_start_date ∧
        g < e2.dose_era_start_date - e1.dose_era_end_date)
      (dose_build_eras g group) := by
  refine ⟨?_, ?_, ?_⟩
  · have h := build_era_spans_chain hg condition_default_end group
    rw [← condition_build_eras_spans] at h
    exact (List.chain'_map _).mp h
  · have h := build_era_spans_chain hg drug_default_end group
    rw [← drug_build_eras_spans] at h
    exact (List.chain'_map _).mp h
  · have h := build_era_spans_chain hg dose_default_end group
    rw [← dose_build_eras_spans] at h
    exact (List.chain'_map _).mp h

theorem era_group_separation_w :
    (0 : Int) ≤ 30 ∧
    List.Chain' (fun e1 e2 : ConditionEra =>
        e1.condition_era_end_date < e2.condition_era_start_date ∧
        (30 : Int) < e2.condition_era_start_date - e1.condition_era_end_date)
      (condition_build_eras 30 [⟨0, some 4⟩, ⟨40, some 45⟩]) :=
  ⟨by decide, (era_group_separation 30 [⟨0, some 4⟩, ⟨40, some 45⟩]
    (by decide)).1⟩

/-- C5: before the merge comparison, a record with a null end date gets its
end date replaced by the start date (condition era) or start date plus one day
(drug and dose era), and a record with a non-null end date is unchanged. -/
theorem default_end_substitution (s e : Int) :
    condition_default_end ⟨s, none⟩ = s ∧
    drug_default_end ⟨s, none⟩ = s + 1 ∧
    dose_default_end ⟨s, none⟩ = s + 1 ∧
    condition_default_end ⟨s, some e⟩ = e ∧
    drug_default_end ⟨s, some e⟩ = e ∧
    dose_default_end ⟨s, some e⟩ = e :=
  ⟨rfl, rfl, rfl, rfl, rfl, rfl⟩

/-- C9 counterexample: the claim "every emitted era satisfies
`era_start_date ≤ era_end_date`, with input otherwise arbitrary, including
records whose end date precedes their start date" fails on the concrete group
`[{start 10, end 5}]`: the condition era built from it is `(10, 5)`. -/
theorem era_dates_ordered_cx :
    ∃ era ∈ condition_build_eras 30 [⟨10, some 5⟩],
      ¬ era.condition_era_start_date ≤ era.condition_era_end_date := by decide

/-- C9 (amended): every era record emitted by any of the three variants
satisfies `era_start_date ≤ era_end_date`, provided each input record's
defaulted end date is on or after its start date. -/
theorem era_dates_ordered (g : Int) (group : List SourceRecord)
    (hc : ∀ r ∈ group, r.start_date ≤ condition_default_end r)
    (hd : ∀ r ∈ group, r.start_date ≤ drug_default_end r)
    (hv : ∀ r ∈ group, r.start_date ≤ dose_default_end r) :
    (∀ era ∈ condition_build_eras g group,
      era.condition_era_start_date ≤ era.condition_era_end_date) ∧
    (∀ era ∈ drug_build_eras g group,
      era.drug_era_start_date ≤ era.drug_era_end_date) ∧
    (∀ era ∈ dose_build_eras g group,
      era.dose_era_start_date ≤ era.dose_era_end_date) := by
  refine ⟨?_, ?_, ?_⟩ <;> intro era hera
  · have h := build_era_spans_wf (g := g) hc
    rw [← condition_build_eras_spans] at h
    exact h _ (List.mem_map_of_mem _ hera)
  · have h := build_era_spans_wf (g := g) hd
    rw [← drug_build_eras_spans] at h
    exact h _ (List.mem_map_of_mem _ hera)
  · have h := build_era_spans_wf (g := g) hv
    rw [← dose_build_eras_spans] at h
    exact h _ (List.mem_map_of_mem _ hera)

theorem era_dates_ordered_w :
    (⟨0, 10, 2⟩ : ConditionEra).condition_era_start_date ≤
      (⟨0, 10, 2⟩ : ConditionEra).condition_era_end_date :=
  (era_dates_ordered 30 [⟨0, some 4⟩, ⟨10, none⟩]
    (by decide) (by decide) (by decide)).1 ⟨0, 10, 2⟩ (by decide)

/-- C3 counterexample: with a record whose end date precedes its start date,
the claim "every source record's start date is covered by exactly one emitted
era of its group" fails as stated.  In the group
`[{start 0, end 0}, {start 10, end 5}]` both records merge into the single
condition era `(0, 5)`, which does not cover the second record's start date
10. -/
theorem era_coverage_cx :
    (⟨10, some 5⟩ : SourceRecord) ∈
        ([⟨0, some 0⟩, ⟨10, some 5⟩] : List SourceRecord) ∧
      ¬ ∃ era ∈ condition_build_eras 30 [⟨0, some 0⟩, ⟨10, some 5⟩],
          era.condition_era_start_date ≤ (10 : Int) ∧
          (10 : Int) ≤ era.condition_era_end_date := by decide

/-- C3 (amended): for every source record `r` of a group there is exactly one
emitted era `e` of that group with
`e.era_start_date ≤ r.start_date ≤ e.era_end_date` — in each of the three
variants, provided every record's defaulted end date is on or after its start
date. -/
theorem era_coverage (g : Int) (group : List SourceRecord) (hg : 0 ≤ g)
    (hc : ∀ r ∈ group, r.start_date ≤ condition_default_end r)
    (hd : ∀ r ∈ group, r.start_date ≤ drug_default_end r)
    (hv : ∀ r ∈ group, r.start_date ≤ dose_default_end r) :
    (∀ r ∈ group, ∃! era, era ∈ condition_build_eras g group ∧
      era.condition_era_start_date ≤ r.start_date ∧
      r.start_date ≤ era.condition_era_end_date) ∧
    (∀ r ∈ group, ∃! era, era ∈ drug_build_eras g group ∧
      era.drug_era_start_date ≤ r.start_date ∧
      r.start_date ≤ era.drug_era_end_date) ∧
    (∀ r ∈ group, ∃! era, era ∈ dose_build_eras g group ∧
      era.dose_era_start_date ≤ r.start_date ∧
      r.start_date ≤ era.dose_era_end_date) := by
  refine ⟨?_, ?_, ?_⟩ <;> intro r hr
  · obtain ⟨q, hq, hq1, hq2⟩ := build_era_spans_cover (g := g) hc r hr
    rw [← condition_build_eras_spans] at hq
    obtain ⟨era, hera, heq⟩ := List.mem_map.mp hq
    have hpair : List.Pairwise (fun a b : ConditionEra =>
        a.condition_era_end_date < b.condition_era_start_date)
        (condition_build_eras g group) := by
      have hm : List.Pairwise (fun p q : Int × Int => p.2 < q.1)
          ((condition_build_eras g group).map
            (fun era => (era.condition_era_start_date, era.condition_era_end_date))) := by
        rw [condition_build_eras_spans]
        exact build_era_spans_pairwise hg hc
      refine hm.of_map _ ?_
      intro a b h
      exact h
    have hcov1 : era.condition_era_start_date ≤ r.start_date := by
      rw [← heq] at hq1; exact hq1
    have hcov2 : r.start_date ≤ era.condition_era_end_date := by
      rw [← heq] at hq2; exact hq2
    refine ⟨era, ⟨hera, hcov1, hcov2⟩, ?_⟩
    rintro era' ⟨hera', h1', h2'⟩
    exact cover_unique_of_pairwise hpair r.start_date era' hera' era hera
      h1' h2' hcov1 hcov2
  · obtain ⟨q, hq, hq1, hq2⟩ := build_era_spans_cover (g := g) hd r hr
    rw [← drug_build_eras_spans] at hq
    obtain ⟨era, hera, heq⟩ := List.mem_map.mp hq
    have hpair : List.Pairwise (fun a b : DrugEra =>
        a.drug_era_end_date < b.drug_era_start_date)
        (drug_build_eras g group) := by
      have hm : List.Pairwise (fun p q : Int × Int => p.2 < q.1)
          ((drug_build_eras g group).map
            (fun era => (era.drug_era_start_date, era.drug_era_end_date))) := by
        rw [drug_build_eras_spans]
        exact build_era_spans_pairwise hg hd
      refine hm.of_map _ ?_
      intro a b h
      exact h
    have hcov1 : era.drug_era_start_date ≤ r.start_date := by
      rw [← heq] at hq1; exact hq1
    have hcov2 : r.start_date ≤ era.drug_era_end_date := by
      rw [← heq] at hq2; exact hq2
    refine ⟨era, ⟨hera, hcov1, hcov2⟩, ?_⟩
    rintro era' ⟨hera', h1', h2'⟩
    exact cover_unique_of_pairwise hpair r.start_date era' hera' era hera
      h1' h2' hcov1 hcov2
  · obtain ⟨q, hq, hq1, hq2⟩ := build_era_spans_cover (g := g) hv r hr
    rw [← dose_build_eras_spans] at hq
    obtain ⟨era, hera, heq⟩ := List.mem_map.mp hq
    have hpair : List.Pairwise (fun a b : DoseEra =>
        a.dose_era_end_date < b.dose_era_start_date)
        (dose_build_eras g group) := by
      have hm : List.Pairwise (fun p q : Int × Int => p.2 < q.1)
          ((dose_build_eras g group).map
            (fun era => (era.dose_era_start_date, era.dose_era_end_date))) := by
        rw [dose_build_eras_spans]
        exact build_era_spans_pairwise hg hv
      refine hm.of_map _ ?_
      intro a b h
      exact h
    have hcov1 : era.dose_era_start_date ≤ r.start_date := by
      rw [← heq] at hq1; exact hq1
    have hcov2 : r.start_date ≤ era.dose_era_end_date := by
      rw [← heq] at hq2; exact hq2
    refine ⟨era, ⟨hera, hcov1, hcov2⟩, ?_⟩
    rintro era' ⟨hera', h1', h2'⟩
    exact cover_unique_of_pairwise hpair r.start_date era' hera' era hera
      h1' h2' hcov1 hcov2

theorem era_coverage_w :
    ∃! era, era ∈ condition_build_eras 30 [⟨0, some 4⟩, ⟨40, some 45⟩] ∧
      era.condition_era_start_date ≤ (0 : Int) ∧
      (0 : Int) ≤ era.condition_era_end_date :=
  (era_coverage 30 [⟨0, some 4⟩, ⟨40, some 45⟩] (by decide) (by decide)
    (by decide) (by decide)).1 ⟨0, some 4⟩ (by decide)

/-! ### Occurrence counts -/

theorem condition_eras_loop_count_sum (g es ee : Int) (c : Nat)
    (l : List (Int × Int)) :
    ((condition_eras_loop g es ee c l).map
      (fun era => era.condition_occurrence_count)).sum = c + l.length := by
  induction l generalizing es ee c with
  | nil => simp [condition_eras_loop]
  | cons p rest ih =>
    obtain ⟨s, e⟩ := p
    by_cases h : s - ee ≤ g <;>
      simp [condition_eras_loop, h, ih] <;> omega

theorem drug_eras_loop_count_sum (g es ee : Int) (c : Nat) (t : Int)
    (l : List (Int × Int)) :
    ((drug_eras_loop g es ee c t l).map
      (fun era => era.drug_exposure_count)).sum = c + l.length := by
  induction l generalizing es ee c t with
  | nil => simp [drug_eras_loop]
  | cons p rest ih =>
    obtain ⟨s, e⟩ := p
    by_cases h : s - ee ≤ g <;>
      simp [drug_eras_loop, h, ih] <;> omega

theorem condition_eras_loop_count_pos {g es ee : Int} {c : Nat}
    {l : List (Int × Int)} (hc : 1 ≤ c) :
    ∀ era ∈ condition_eras_loop g es ee c l,
      1 ≤ era.condition_occurrence_count := by
  induction l generalizing es ee c with
  | nil =>
    intro era hera
    simp only [condition_eras_loop, List.mem_singleton] at hera
    subst hera
    exact hc
  | cons p rest ih =>
    obtain ⟨s, e⟩ := p
    intro era hera
    by_cases h : s - ee ≤ g
    · simp only [condition_eras_loop, if_pos h] at hera
      exact ih (by omega) era hera
    · simp only [condition_eras_loop, if_neg h, List.mem_cons] at hera
      rcases hera with rfl | hera'
      · exact hc
      · exact ih (le_refl 1) era hera'

theorem drug_eras_loop_count_pos {g es ee : Int} {c : Nat} {t : Int}
    {l : List (Int × Int)} (hc : 1 ≤ c) :
    ∀ era ∈ drug_eras_loop g es ee c t l, 1 ≤ era.drug_exposure_count := by
  induction l generalizing es ee c t with
  | nil =>
    intro era hera
    simp only [drug_eras_loop, List.mem_singleton] at hera
    subst hera
    exact hc
  | cons p rest ih =>
    obtain ⟨s, e⟩ := p
    intro era hera
    by_cases h : s - ee ≤ g
    · simp only [drug_eras_loop, if_pos h] at hera
      exact ih (by omega) era hera
    · simp only [drug_eras_loop, if_neg h, List.mem_cons] at hera
      rcases hera with rfl | hera'
      · exact hc
      · exact ih (le_refl 1) era hera'

theorem condition_eras_loop_count_eq (g : Int) (l : List (Int × Int)) :
    ∀ (es ee : Int) (cur : List (Int × Int)),
      (condition_eras_loop g es ee cur.length l).map
        (fun era => era.condition_occurrence_count) =
        (merged_records_loop g ee cur l).map (fun rs => rs.length) := by
  induction l with
  | nil => intro es ee cur; simp [condition_eras_loop, merged_records_loop]
  | cons p rest ih =>
    obtain ⟨s, e⟩ := p
    intro es ee cur
    by_cases h : s - ee ≤ g
    · simp only [condition_eras_loop, merged_records_loop, if_pos h]
      have hl : cur.length + 1 = (cur ++ [(s, e)]).length := by simp
      rw [hl]
      exact ih es (max ee e) (cur ++ [(s, e)])
    · simp only [condition_eras_loop, merged_records_loop, if_neg h,
        List.map_cons]
      have := ih s e [(s, e)]
      rw [List.length_singleton] at this
      rw [this]

theorem drug_eras_loop_count_eq (g : Int) (l : List (Int × Int)) :
    ∀ (es ee : Int) (cur : List (Int × Int)) (t : Int),
      (drug_eras_loop g es ee cur.length t l).map
        (fun era => era.drug_exposure_count) =
        (merged_records_loop g ee cur l).map (fun rs => rs.length) := by
  induction l with
  | nil => intro es ee cur t; simp [drug_eras_loop, merged_records_loop]
  | cons p rest ih =>
    obtain ⟨s, e⟩ := p
    intro es ee cur t
    by_cases h : s - ee ≤ g
    · simp only [drug_eras_loop, merged_records_loop, if_pos h]
      have hl : cur.length + 1 = (cur ++ [(s, e)]).length := by simp
      rw [hl]
      exact ih es (max ee e) (cur ++ [(s, e)]) _
    · simp only [drug_eras_loop, merged_records_loop, if_neg h, List.map_cons]
      have := ih s e [(s, e)] 0
      rw [List.length_singleton] at this
      rw [this]

theorem merged_records_loop_flatten (g : Int) (l : List (Int × Int)) :
    ∀ (ee : Int) (cur : List (Int × Int)),
      (merged_records_loop g ee cur l).flatten = cur ++ l := by
  induction l with
  | nil => intro ee cur; simp [merged_records_loop]
  | cons p rest ih =>
    obtain ⟨s, e⟩ := p
    intro ee cur
    by_cases h : s - ee ≤ g
    · simp only [merged_records_loop, if_pos h]
      rw [ih]
      simp
    · simp only [merged_records_loop, if_neg h, List.flatten_cons]
      rw [ih]
      simp

/-- C4: each condition/drug era's occurrence count equals the number of
source records merged into that era — the per-era record lists are collected
by `build_merged_records`, whose concatenation is exactly the group's sorted,
defaulted record sequence, so they partition the group; every count is at
least 1; and summed over a group's eras the counts equal the number of source
records of the group. -/
theorem era_occurrence_counts (g : Int) (group : List SourceRecord) :
    ((condition_build_eras g group).map
      (fun era => era.condition_occurrence_count)) =
      (build_merged_records g condition_default_end group).map
        (fun rs => rs.length) ∧
    ((drug_build_eras g group).map (fun era => era.drug_exposure_count)) =
      (build_merged_records g drug_default_end group).map
        (fun rs => rs.length) ∧
    (build_merged_records g condition_default_end group).flatten =
      (sort_by_start group).map
        (fun r => (r.start_date, condition_default_end r)) ∧
    (build_merged_records g drug_default_end group).flatten =
      (sort_by_start group).map
        (fun r => (r.start_date, drug_default_end r)) ∧
    ((condition_build_eras g group).map
      (fun era => era.condition_occurrence_count)).sum = group.length ∧
    (∀ era ∈ condition_build_eras g group,
      1 ≤ era.condition_occurrence_count) ∧
    ((drug_build_eras g group).map
      (fun era => era.drug_exposure_count)).sum = group.length ∧
    (∀ era ∈ drug_build_eras g group, 1 ≤ era.drug_exposure_count) := by
  have hlen := length_sort_by_start group
  cases hs : sort_by_start group with
  | nil =>
    rw [hs] at hlen
    simp [condition_build_eras, drug_build_eras, build_merged_records,
      hs, ← hlen]
  | cons r rs =>
    rw [hs] at hlen
    simp only [List.length_cons] at hlen
    simp only [condition_build_eras, drug_build_eras, build_merged_records,
      hs, List.map_cons]
    refine ⟨?_, ?_, ?_, ?_, ?_, ?_, ?_, ?_⟩
    · have := condition_eras_loop_count_eq g
        (rs.map (fun x => (x.start_date, condition_default_end x)))
        r.start_date (condition_default_end r)
        [(r.start_date, condition_default_end r)]
      rw [List.length_singleton] at this
      exact this
    · have := drug_eras_loop_count_eq g
        (rs.map (fun x => (x.start_date, drug_default_end x)))
        r.start_date (drug_default_end r)
        [(r.start_date, drug_default_end r)] 0
      rw [List.length_singleton] at this
      exact this
    · rw [merged_records_loop_flatten]
      simp
    · rw [merged_records_loop_flatten]
      simp
    · rw [condition_eras_loop_count_sum]
      simp only [List.length_map]
      omega
    · exact condition_eras_loop_count_pos (le_refl 1)
    · rw [drug_eras_loop_count_sum]
      simp only [List.length_map]
      omega
    · exact drug_eras_loop_count_pos (le_refl 1)

theorem era_occurrence_counts_w :
    1 ≤ (⟨0, 10, 2⟩ : ConditionEra).condition_occurrence_count :=
  (era_occurrence_counts 30 [⟨0, some 4⟩, ⟨10, none⟩]).2.2.2.2.2.1 ⟨0, 10, 2⟩
    (by decide)

/-- C2: in a group of two records sorted by start date, a gap of exactly
`gap_days = 30` between the running era end (the first record's end date) and
the next start date merges both records into one era, while a gap of 31
closes the first era and starts a second one — in all three variants. -/
theorem gap_threshold_boundary (s1 e1 s2 e2 : Int) (hle : s1 ≤ s2) :
    (s2 - e1 = 30 →
      (condition_build_eras 30 [⟨s1, some e1⟩, ⟨s2, some e2⟩]).length = 1 ∧
      (drug_build_eras 30 [⟨s1, some e1⟩, ⟨s2, some e2⟩]).length = 1 ∧
      (dose_build_eras 30 [⟨s1, some e1⟩, ⟨s2, some e2⟩]).length = 1) ∧
    (s2 - e1 = 31 →
      (condition_build_eras 30 [⟨s1, some e1⟩, ⟨s2, some e2⟩]).length = 2 ∧
      (drug_build_eras 30 [⟨s1, some e1⟩, ⟨s2, some e2⟩]).length = 2 ∧
      (dose_build_eras 30 [⟨s1, some e1⟩, ⟨s2, some e2⟩]).length = 2) := by
  constructor <;> intro hgap
  · have h30 : s2 - e1 ≤ 30 := by omega
    refine ⟨?_, ?_, ?_⟩ <;>
      simp [condition_build_eras, drug_build_eras, dose_build_eras,
        sort_by_start, List.insertionSort, List.orderedInsert, hle,
        condition_default_end, drug_default_end, dose_default_end,
        condition_eras_loop, drug_eras_loop, dose_eras_loop, h30]
  · have h31 : ¬ s2 - e1 ≤ 30 := by omega
    refine ⟨?_, ?_, ?_⟩ <;>
      simp [condition_build_eras, drug_build_eras, dose_build_eras,
        sort_by_start, List.insertionSort, List.orderedInsert, hle,
        condition_default_end, drug_default_end, dose_default_end,
        condition_eras_loop, drug_eras_loop, dose_eras_loop, h31]

theorem gap_threshold_boundary_w :
    (condition_build_eras 30 [⟨0, some 0⟩, ⟨30, some 35⟩]).length = 1 ∧
    (condition_build_eras 30 [⟨0, some 0⟩, ⟨31, some 35⟩]).length = 2 :=
  ⟨((gap_threshold_boundary 0 0 30 35 (by decide)).1 (by decide)).1,
   ((gap_threshold_boundary 0 0 31 35 (by decide)).2 (by decide)).1⟩

/-! ### Gap-day accounting of the drug era variant -/

theorem drug_eras_loop_gap_le {g es ee : Int} {c : Nat} {t : Int}
    {l : List (Int × Int)} (ht : t ≤ ee - es) (h2 : ∀ p ∈ l, p.1 ≤ p.2) :
    ∀ era ∈ drug_eras_loop g es ee c t l,
      era.gap_days ≤ era.drug_era_end_date - era.drug_era_start_date := by
  induction l generalizing es ee c t with
  | nil =>
    intro era hera
    simp only [drug_eras_loop, List.mem_singleton] at hera
    subst hera
    exact ht
  | cons p rest ih =>
    obtain ⟨s, e⟩ := p
    intro era hera
    by_cases h : s - ee ≤ g
    · simp only [drug_eras_loop, if_pos h] at hera
      have hse : s ≤ e := h2 (s, e) (List.mem_cons_self _ _)
      have hA : ee ≤ max ee e := le_max_left ee e
      have hB : e ≤ max ee e := le_max_right ee e
      refine ih ?_ (fun p hp => h2 p (List.mem_cons_of_mem _ hp)) era hera
      by_cases hpos : 0 < s - ee
      · rw [if_pos hpos]
        omega
      · rw [if_neg hpos]
        omega
    · simp only [drug_eras_loop, if_neg h, List.mem_cons] at hera
      rcases hera with rfl | hera'
      · exact ht
      · have hse : s ≤ e := h2 (s, e) (List.mem_cons_self _ _)
        exact ih (by omega) (fun p hp => h2 p (List.mem_cons_of_mem _ hp))
          era hera'

/-- C10: for a drug era group whose records all have defaulted end date on or
after their start date, every emitted era's accumulated `gap_days` is at most
the era's span in days. -/
theorem drug_gap_days_bounded (g : Int) (group : List SourceRecord)
    (hd : ∀ r ∈ group, r.start_date ≤ drug_default_end r) :
    ∀ era ∈ drug_build_eras g group,
      era.gap_days ≤ era.drug_era_end_date - era.drug_era_start_date := by
  cases hs : sort_by_start group with
  | nil => simp [drug_build_eras, hs]
  | cons r rs =>
    simp only [drug_build_eras, hs, List.map_cons]
    have hr : r.start_date ≤ drug_default_end r :=
      hd r (mem_sort_by_start.mp
        (show r ∈ sort_by_start group by rw [hs]; exact List.mem_cons_self r rs))
    apply drug_eras_loop_gap_le
    · omega
    · intro p hp
      obtain ⟨x, hx, rfl⟩ := List.mem_map.mp hp
      exact hd x (mem_sort_by_start.mp
        (show x ∈ sort_by_start group by
          rw [hs]; exact List.mem_cons_of_mem _ hx))

theorem drug_gap_days_bounded_w :
    (⟨0, 24, 2, 10⟩ : DrugEra).gap_days ≤
      (⟨0, 24, 2, 10⟩ : DrugEra).drug_era_end_date -
        (⟨0, 24, 2, 10⟩ : DrugEra).drug_era_start_date :=
  drug_gap_days_bounded 30 [⟨0, some 9⟩, ⟨19, some 24⟩] (by decide)
    ⟨0, 24, 2, 10⟩ (by decide)

theorem drug_eras_loop_gap_lists (g : Int) (l : List (Int × Int)) :
    ∀ (es ee : Int) (c : Nat) (gl : List Int),
      (drug_eras_loop g es ee c gl.sum l).map (fun era => era.gap_days) =
        (drug_gap_lists_loop g ee gl l).map (fun gs => gs.sum) := by
  induction l with
  | nil => intro es ee c gl; simp [drug_eras_loop, drug_gap_lists_loop]
  | cons p rest ih =>
    obtain ⟨s, e⟩ := p
    intro es ee c gl
    by_cases h : s - ee ≤ g
    · simp only [drug_eras_loop, drug_gap_lists_loop, if_pos h]
      by_cases hpos : 0 < s - ee
      · rw [if_pos hpos, if_pos hpos]
        have hsum : gl.sum + (s - ee) = (gl ++ [s - ee]).sum := by simp
        rw [hsum]
        exact ih es (max ee e) (c + 1) (gl ++ [s - ee])
      · rw [if_neg hpos, if_neg hpos]
        exact ih es (max ee e) (c + 1) gl
    · simp only [drug_eras_loop, drug_gap_lists_loop, if_neg h, List.map_cons]
      have := ih s e 1 []
      rw [List.sum_nil] at this
      rw [this]

theorem drug_gap_lists_loop_bounds {g ee : Int} {gl : List Int}
    {l : List (Int × Int)} (hgl : ∀ x ∈ gl, 0 < x ∧ x ≤ g) :
    ∀ gs ∈ drug_gap_lists_loop g ee gl l, ∀ x ∈ gs, 0 < x ∧ x ≤ g := by
  induction l generalizing ee gl with
  | nil =>
    intro gs hgs
    simp only [drug_gap_lists_loop, List.mem_singleton] at hgs
    subst hgs
    exact hgl
  | cons p rest ih =>
    obtain ⟨s, e⟩ := p
    intro gs hgs
    by_cases h : s - ee ≤ g
    · simp only [drug_gap_lists_loop, if_pos h] at hgs
      by_cases hpos : 0 < s - ee
      · rw [if_pos hpos] at hgs
        refine ih ?_ gs hgs
        intro x hx
        rcases List.mem_append.mp hx with hx' | hx'
        · exact hgl x hx'
        · simp only [List.mem_singleton] at hx'
          subst hx'
          exact ⟨hpos, h⟩
      · rw [if_neg hpos] at hgs
        exact ih hgl gs hgs
    · simp only [drug_gap_lists_loop, if_neg h, List.mem_cons] at hgs
      rcases hgs with rfl | hgs'
      · exact hgl
      · exact ih (fun x hx => absurd hx (List.not_mem_nil x)) gs hgs'

theorem drug_eras_loop_single_gap {g es ee : Int} {c : Nat} {t : Int}
    {l : List (Int × Int)} (hc : 1 ≤ c) (hct : c = 1 → t = 0) :
    ∀ era ∈ drug_eras_loop g es ee c t l,
      era.drug_exposure_count = 1 → era.gap_days = 0 := by
  induction l generalizing es ee c t with
  | nil =>
    intro era hera
    simp only [drug_eras_loop, List.mem_singleton] at hera
    subst hera
    exact hct
  | cons p rest ih =>
    obtain ⟨s, e⟩ := p
    intro era hera
    by_cases h : s - ee ≤ g
    · simp only [drug_eras_loop, if_pos h] at hera
      exact ih (by omega) (fun habs => absurd habs (by omega)) era hera
    · simp only [drug_eras_loop, if_neg h, List.mem_cons] at hera
      rcases hera with rfl | hera'
      · exact hct
      · exact ih (le_refl 1) (fun _ => rfl) era hera'

/-- C6: each drug era's `gap_days` equals the sum of the positive inter-record
gaps absorbed into that era (collected, following the spec's wording, by
`drug_build_gap_lists`); every absorbed gap `x` satisfies `0 < x ≤ gap_days`;
and an era built from a single exposure has `gap_days = 0`. -/
theorem drug_gap_days_semantics (g : Int) (group : List SourceRecord) :
    (drug_build_eras g group).map (fun era => era.gap_days) =
      (drug_build_gap_lists g group).map (fun gs => gs.sum) ∧
    (∀ gs ∈ drug_build_gap_lists g group, ∀ x ∈ gs, 0 < x ∧ x ≤ g) ∧
    (∀ era ∈ drug_build_eras g group,
      era.drug_exposure_count = 1 → era.gap_days = 0) := by
  cases hs : sort_by_start group with
  | nil => simp [drug_build_eras, drug_build_gap_lists, hs]
  | cons r rs =>
    simp only [drug_build_eras, drug_build_gap_lists, hs, List.map_cons]
    refine ⟨?_, ?_, ?_⟩
    · have := drug_eras_loop_gap_lists g
        (rs.map (fun x => (x.start_date, drug_default_end x)))
        r.start_date (drug_default_end r) 1 []
      rw [List.sum_nil] at this
      exact this
    · exact drug_gap_lists_loop_bounds (fun x hx => absurd hx (List.not_mem_nil x))
    · exact drug_eras_loop_single_gap (le_refl 1) (fun _ => rfl)

theorem drug_gap_days_semantics_w :
    (⟨0, 9, 1, 0⟩ : DrugEra).gap_days = 0 :=
  (drug_gap_days_semantics 30 [⟨0, some 9⟩, ⟨100, some 101⟩]).2.2
    ⟨0, 9, 1, 0⟩ (by decide) (by decide)

/-- C7: after hash-based id generation, the dose era variant replaces all ids
by the sequence `1..N` whenever any id is duplicated, so the emitted
`dose_era_id` column is always duplicate-free, whether or not the fallback
fires. -/
theorem dose_era_id_uniqueness (hash_id : Nat → DoseEra → Nat)
    (rows : List DoseEra) :
    (dose_assign_ids hash_id rows).Nodup ∧
    (dose_assign_ids hash_id rows).length = rows.length ∧
    (¬ (rows.enum.map (fun p => hash_id p.1 p.2)).Nodup →
      dose_assign_ids hash_id rows = List.range' 1 rows.length) := by
  by_cases h : (rows.enum.map (fun p => hash_id p.1 p.2)).Nodup
  · have he : dose_assign_ids hash_id rows =
        rows.enum.map (fun p => hash_id p.1 p.2) := by
      simp only [dose_assign_ids]
      rw [if_pos h]
    rw [he]
    exact ⟨h, by rw [List.length_map, List.enum_length],
      fun hcon => absurd h hcon⟩
  · have he : dose_assign_ids hash_id rows = List.range' 1 rows.length := by
      simp only [dose_assign_ids]
      rw [if_neg h]
    rw [he]
    exact ⟨List.nodup_range' 1 rows.length,
      List.length_range' 1 1 rows.length, fun _ => rfl⟩

theorem dose_era_id_uniqueness_w :
    dose_assign_ids (fun _ _ => 5) [⟨0, 1⟩, ⟨2, 3⟩] = List.range' 1 2 :=
  (dose_era_id_uniqueness (fun _ _ => 5) [⟨0, 1⟩, ⟨2, 3⟩]).2.2 (by decide)

/-- C8: the surrogate-key generator is a pure function of the key string —
equal keys always give equal ids — and its result, obtained from the first 4
(condition/drug era) or 8 (dose era) digest bytes read big-endian, reduced
modulo 2147483647 and incremented, always lies in `[1, 2147483647]`, for any
digest function. -/
theorem era_id_deterministic_bounded (md5 : String → List Nat)
    (k1 k2 : String) :
    (1 ≤ condition_generate_era_id md5 k1 ∧
      condition_generate_era_id md5 k1 ≤ 2147483647) ∧
    (1 ≤ drug_generate_era_id md5 k1 ∧
      drug_generate_era_id md5 k1 ≤ 2147483647) ∧
    (1 ≤ dose_generate_era_id md5 k1 ∧
      dose_generate_era_id md5 k1 ≤ 2147483647) ∧
    (k1 = k2 →
      condition_generate_era_id md5 k1 = condition_generate_era_id md5 k2 ∧
      drug_generate_era_id md5 k1 = drug_generate_era_id md5 k2 ∧
      dose_generate_era_id md5 k1 = dose_generate_era_id md5 k2) := by
  have hb : ∀ (ds : List Nat) (n : Nat),
      1 ≤ era_id_of_digest ds n ∧ era_id_of_digest ds n ≤ 2147483647 := by
    intro ds n
    unfold era_id_of_digest
    have := Nat.mod_lt (int_from_bytes_be (ds.take n))
      (show 0 < 2147483647 by decide)
    omega
  refine ⟨hb (md5 k1) 4, hb (md5 k1) 4, hb (md5 k1) 8, ?_⟩
  rintro rfl
  exact ⟨rfl, rfl, rfl⟩

theorem era_id_deterministic_bounded_w :
    condition_generate_era_id (fun _ => [202, 254, 186, 190]) "k" =
      condition_generate_era_id (fun _ => [202, 254, 186, 190]) "k" :=
  ((era_id_deterministic_bounded (fun _ => [202, 254, 186, 190]) "k" "k").2.2.2
    rfl).1
